import Mathlib

/-!
Verification of the fnn feed-forward network runtime (reference implementation
`test/pyfnn.py`).  The numeric code is embedded shallowly over exact rational
arithmetic: numpy 1-d arrays become `List ℚ`, the dense weight matrix is the
column-major view of the flat parameter buffer exactly as in the source
(`parameters[Nout:].reshape((Nout, Nin), order='F')`), and the mutable
linearisation state (`self.x`, `activation_prime`) becomes explicit fields
threaded through `apply_linearise`.  The hyperbolic tangent is irrational
valued, hence not representable inside ℚ; it is kept as an abstract scalar
map `ActEnv.tanhFn`, so every theorem below holds for the exact real tanh in
particular.  Fallible operations (numpy broadcast errors, KeyError lookups,
IndexError on `layers[0]`, parse failures) are modelled with `Option` or an
explicit result type.
-/

namespace FNN

/-- Environment carrying the abstract scalar tanh map (see module comment). -/
structure ActEnv where
  tanhFn : ℚ → ℚ

/-- The three activation classes selectable by `construct_activation`. -/
inductive ActivationKind where
  | linear
  | tanh
  | relu
deriving DecidableEq

/-- Source `construct_activation`: dictionary lookup by name; an unknown name
raises `KeyError`, modelled as `none`. -/
def construct_activation (name : String) : Option ActivationKind :=
  if name = "linear" then some ActivationKind.linear
  else if name = "tanh" then some ActivationKind.tanh
  else if name = "relu" then some ActivationKind.relu
  else none

/-- Scalar forward map of each activation (`apply`). -/
def actApply (E : ActEnv) : ActivationKind → ℚ → ℚ
  | ActivationKind.linear, z => z
  | ActivationKind.tanh, z => E.tanhFn z
  | ActivationKind.relu, z => max z 0

/-- Elementwise activation forward pass on a vector. -/
def actApplyVec (E : ActEnv) (k : ActivationKind) (z : List ℚ) : List ℚ :=
  z.map (actApply E k)

/-- Source `apply_linearise` of each activation class: returns the output
vector together with the new stored `activation_prime`.  `LinearActivation`
stores nothing, so the old prime is passed through; tanh stores `1 - y^2`
with `y = tanh z`; relu stores `1 * (z > 0)`. -/
def actApplyLinearise (E : ActEnv) (k : ActivationKind) (prime z : List ℚ) :
    List ℚ × List ℚ :=
  match k with
  | ActivationKind.linear => (z, prime)
  | ActivationKind.tanh =>
      let y := z.map E.tanhFn
      (y, y.map fun t => 1 - t ^ 2)
  | ActivationKind.relu =>
      (z.map fun t => max t 0, z.map fun t => if 0 < t then 1 else 0)

/-- Source `apply_tangent_linear`: `LinearActivation` overrides it to the
identity; the abstract base class multiplies by the stored prime. -/
def actTangentLinear (k : ActivationKind) (prime dz : List ℚ) : List ℚ :=
  match k with
  | ActivationKind.linear => dz
  | _ => List.zipWith (· * ·) prime dz

/-- Source `apply_adjoint`: same body as the tangent linear (diagonal map). -/
def actAdjoint (k : ActivationKind) (prime dy : List ℚ) : List ℚ :=
  match k with
  | ActivationKind.linear => dy
  | _ => List.zipWith (· * ·) prime dy

/-- Dot product of two rational vectors (`np.dot` on equal-length 1-d arrays;
`zipWith` truncates at the shorter operand). -/
def dot (u v : List ℚ) : ℚ :=
  (List.zipWith (· * ·) u v).sum

/-- Column-major matrix-vector product: row `i` of the `Nout×Nin` matrix read
from the flat buffer `q` with `q[j*Nout+i]` at column `j`, applied to `x`.
This is exactly `q.reshape((Nout, Nin), order='F') @ x`. -/
def cmMatVec (Nout Nin : ℕ) (q xv : List ℚ) : List ℚ :=
  (List.range Nout).map fun i =>
    dot ((List.range Nin).map fun j => q.getD (j * Nout + i) 0) xv

/-- Transposed column-major matrix-vector product:
`q.reshape((Nout, Nin), order='F').T @ v`. -/
def cmMatTVec (Nout Nin : ℕ) (q v : List ℚ) : List ℚ :=
  (List.range Nin).map fun j =>
    dot ((List.range Nout).map fun i => q.getD (j * Nout + i) 0) v

/-- Numpy slice assignment `buf[:] = p`: succeeds when the lengths agree, or
when `p` has length 1 (broadcast fill); otherwise raises a broadcast
`ValueError`, modelled as `none`. -/
def broadcastAssign (buf p : List ℚ) : Option (List ℚ) :=
  if p.length = buf.length then some p
  else if p.length = 1 then some (buf.map fun _ => p.getD 0 0)
  else none

/-- Dense layer (source class `DenseLayer`).  `parameters` is the flat buffer
(bias block then column-major weight block); `x` and `prime` are the mutable
linearisation state (`self.x`, `activation.activation_prime`), initially
empty. -/
structure DenseLayer where
  Nin : ℕ
  Nout : ℕ
  kind : ActivationKind
  parameters : List ℚ
  x : List ℚ
  prime : List ℚ
deriving DecidableEq

/-- `self.num_parameters = self.Nout * (self.Nin+1)` as set by `__init__`. -/
def DenseLayer.num_parameters (d : DenseLayer) : ℕ :=
  d.Nout * (d.Nin + 1)

/-- Bias view `self.b = self.parameters[:self.Nout]`. -/
def DenseLayer.b (d : DenseLayer) : List ℚ :=
  d.parameters.take d.Nout

/-- Weight view applied to a vector:
`self.w @ v` with `self.w = self.parameters[self.Nout:].reshape((Nout, Nin), order='F')`. -/
def DenseLayer.wMatVec (d : DenseLayer) (v : List ℚ) : List ℚ :=
  cmMatVec d.Nout d.Nin (d.parameters.drop d.Nout) v

/-- Transposed weight view applied to a vector: `self.w.T @ v`. -/
def DenseLayer.wTMatVec (d : DenseLayer) (v : List ℚ) : List ℚ :=
  cmMatTVec d.Nout d.Nin (d.parameters.drop d.Nout) v

/-- Pre-activation `z = self.w @ x + self.b`. -/
def DenseLayer.preact (d : DenseLayer) (xv : List ℚ) : List ℚ :=
  List.zipWith (· + ·) (d.wMatVec xv) d.b

/-- Source `DenseLayer.apply`. -/
def DenseLayer.apply (d : DenseLayer) (E : ActEnv) (xv : List ℚ) : List ℚ :=
  actApplyVec E d.kind (d.preact xv)

/-- Source `DenseLayer.apply_linearise`: stores a copy of `x`, computes
`z = w@x + b`, and returns `activation.apply_linearise(z)` while recording
the new activation state. -/
def DenseLayer.apply_linearise (d : DenseLayer) (E : ActEnv) (xv : List ℚ) :
    DenseLayer × List ℚ :=
  let z := d.preact xv
  let r := actApplyLinearise E d.kind d.prime z
  ({ d with x := xv, prime := r.2 }, r.1)

/-- Source `DenseLayer.apply_tangent_linear_x`. -/
def DenseLayer.apply_tangent_linear_x (d : DenseLayer) (dx : List ℚ) : List ℚ :=
  actTangentLinear d.kind d.prime (d.wMatVec dx)

/-- Source `DenseLayer.apply_adjoint_x`. -/
def DenseLayer.apply_adjoint_x (d : DenseLayer) (dy : List ℚ) : List ℚ :=
  d.wTMatVec (actAdjoint d.kind d.prime dy)

/-- Source `DenseLayer.apply_tangent_linear_p`: split `dp` into `db` and the
column-major `dw`, push `dw @ x` and `db` separately through the activation
tangent linear, and add. -/
def DenseLayer.apply_tangent_linear_p (d : DenseLayer) (dp : List ℚ) : List ℚ :=
  let db := dp.take d.Nout
  let tlw := actTangentLinear d.kind d.prime
      (cmMatVec d.Nout d.Nin (dp.drop d.Nout) d.x)
  let tlb := actTangentLinear d.kind d.prime db
  List.zipWith (· + ·) tlw tlb

/-- Source `DenseLayer.apply_adjoint_p`: `db = activation.apply_adjoint(dy)`,
`dw = outer(db, x)`, returned as `concatenate([db, dw.flatten(order='F')])`;
the column-major flattening of the outer product lists, for each `x`-entry,
the whole `db` column scaled by it. -/
def DenseLayer.apply_adjoint_p (d : DenseLayer) (dy : List ℚ) : List ℚ :=
  let db := actAdjoint d.kind d.prime dy
  db ++ (d.x.map fun xj => db.map fun bi => bi * xj).flatten

/-- Normalisation layer (source class `NormalisationLayer`); the scale and
shift are held as per-element vectors of length `Ninout`. -/
structure NormalisationLayer where
  Ninout : ℕ
  alpha : List ℚ
  beta : List ℚ
deriving DecidableEq

/-- Source `NormalisationLayer.apply`: `alpha * x + beta` elementwise. -/
def NormalisationLayer.apply (nl : NormalisationLayer) (xv : List ℚ) : List ℚ :=
  List.zipWith (· + ·) (List.zipWith (· * ·) nl.alpha xv) nl.beta

/-- Source `NormalisationLayer.apply_tangent_linear_x`. -/
def NormalisationLayer.apply_tangent_linear_x (nl : NormalisationLayer)
    (dx : List ℚ) : List ℚ :=
  List.zipWith (· * ·) nl.alpha dx

/-- Source `NormalisationLayer.apply_adjoint_x`. -/
def NormalisationLayer.apply_adjoint_x (nl : NormalisationLayer)
    (dy : List ℚ) : List ℚ :=
  List.zipWith (· * ·) nl.alpha dy

/-- A layer of the sequential stack. -/
inductive Layer where
  | dense : DenseLayer → Layer
  | normalisation : NormalisationLayer → Layer
deriving DecidableEq

/-- Per-layer `num_parameters` (0 for a normalisation layer). -/
def Layer.num_parameters : Layer → ℕ
  | Layer.dense d => d.num_parameters
  | Layer.normalisation _ => 0

/-- Per-layer parameter buffer (`np.zeros(0)` for a normalisation layer). -/
def Layer.parameters : Layer → List ℚ
  | Layer.dense d => d.parameters
  | Layer.normalisation _ => []

/-- Input width of a layer. -/
def Layer.NinOf : Layer → ℕ
  | Layer.dense d => d.Nin
  | Layer.normalisation nl => nl.Ninout

/-- Output width of a layer. -/
def Layer.NoutOf : Layer → ℕ
  | Layer.dense d => d.Nout
  | Layer.normalisation nl => nl.Ninout

/-- Layer forward pass. -/
def Layer.apply (l : Layer) (E : ActEnv) (xv : List ℚ) : List ℚ :=
  match l with
  | Layer.dense d => d.apply E xv
  | Layer.normalisation nl => nl.apply xv

/-- Layer linearising forward pass, returning the updated layer state and the
output (`NormalisationLayer.apply_linearise` is just `apply`). -/
def Layer.apply_linearise (l : Layer) (E : ActEnv) (xv : List ℚ) :
    Layer × List ℚ :=
  match l with
  | Layer.dense d =>
      let r := d.apply_linearise E xv
      (Layer.dense r.1, r.2)
  | Layer.normalisation nl => (Layer.normalisation nl, nl.apply xv)

/-- Layer tangent linear in the input. -/
def Layer.apply_tangent_linear_x (l : Layer) (dx : List ℚ) : List ℚ :=
  match l with
  | Layer.dense d => d.apply_tangent_linear_x dx
  | Layer.normalisation nl => nl.apply_tangent_linear_x dx

/-- Layer adjoint in the input. -/
def Layer.apply_adjoint_x (l : Layer) (dy : List ℚ) : List ℚ :=
  match l with
  | Layer.dense d => d.apply_adjoint_x dy
  | Layer.normalisation nl => nl.apply_adjoint_x dy

/-- Layer tangent linear in the parameters (`np.zeros(self.Nout)` for a
normalisation layer). -/
def Layer.apply_tangent_linear_p (l : Layer) (dp : List ℚ) : List ℚ :=
  match l with
  | Layer.dense d => d.apply_tangent_linear_p dp
  | Layer.normalisation nl => List.replicate nl.Ninout 0

/-- Layer adjoint in the parameters (`np.zeros(0)` for a normalisation
layer). -/
def Layer.apply_adjoint_p (l : Layer) (dy : List ℚ) : List ℚ :=
  match l with
  | Layer.dense d => d.apply_adjoint_p dy
  | Layer.normalisation _ => []

/-- Source `SequentialNetwork.num_parameters`. -/
def num_parameters (net : List Layer) : ℕ :=
  (net.map Layer.num_parameters).sum

/-- Source `SequentialNetwork.parameters` getter
(`join_parameters` is `np.concatenate`). -/
def netParameters (net : List Layer) : List ℚ :=
  (net.map Layer.parameters).flatten

/-- Source `SequentialNetwork.split_parameters`: contiguous slices of length
`layer.num_parameters` in forward order (python slicing truncates a
too-short vector, as `take`/`drop` do). -/
def split_parameters : List Layer → List ℚ → List (List ℚ)
  | [], _ => []
  | l :: ls, p => p.take l.num_parameters :: split_parameters ls (p.drop l.num_parameters)

/-- Slice assignment of one layer's buffer (`layer.parameters[:] = pi`). -/
def Layer.assignParams : Layer → List ℚ → Option Layer
  | Layer.dense d, q =>
      (broadcastAssign d.parameters q).map fun p => Layer.dense { d with parameters := p }
  | Layer.normalisation nl, q =>
      (broadcastAssign [] q).map fun _ => Layer.normalisation nl

/-- The loop of the `parameters` setter: `zip` stops at the shorter list, a
broadcast failure aborts the loop (python exception), leaving the failing
and all later layers untouched while keeping earlier assignments. The flag
records whether the loop ran to completion. -/
def setParamsLoop : List Layer → List (List ℚ) → List Layer × Bool
  | ls, [] => (ls, true)
  | [], _ => ([], true)
  | l :: ls, q :: qs =>
      match l.assignParams q with
      | some l' =>
          let r := setParamsLoop ls qs
          (l' :: r.1, r.2)
      | none => (l :: ls, false)

/-- Source `SequentialNetwork.parameters` setter. -/
def setParameters (net : List Layer) (p : List ℚ) : List Layer × Bool :=
  setParamsLoop net (split_parameters net p)

/-- Source `SequentialNetwork.apply`: left fold over the layers. -/
def netApply (E : ActEnv) : List Layer → List ℚ → List ℚ
  | [], xv => xv
  | l :: ls, xv => netApply E ls (l.apply E xv)

/-- Source `SequentialNetwork.apply_linearise`: same fold, updating each
layer's linearisation state in turn. -/
def netApplyLinearise (E : ActEnv) : List Layer → List ℚ → List Layer × List ℚ
  | [], xv => ([], xv)
  | l :: ls, xv =>
      let r := l.apply_linearise E xv
      let s := netApplyLinearise E ls r.2
      (r.1 :: s.1, s.2)

/-- Source `SequentialNetwork.apply_tangent_linear_x`: forward fold. -/
def netApplyTangentLinearX : List Layer → List ℚ → List ℚ
  | [], dx => dx
  | l :: ls, dx => netApplyTangentLinearX ls (l.apply_tangent_linear_x dx)

/-- Source `SequentialNetwork.apply_adjoint_x`: fold in reverse layer order
(`for layer in self.layers[::-1]`). -/
def netApplyAdjointX : List Layer → List ℚ → List ℚ
  | [], dy => dy
  | l :: ls, dy => l.apply_adjoint_x (netApplyAdjointX ls dy)

/-- Loop of `apply_tangent_linear_p` over `zip(self.layers[1:], dp_list[1:])`,
carrying the running perturbation. -/
def tlpLoop : List Layer → List (List ℚ) → List ℚ → List ℚ
  | l :: ls, q :: qs, dy =>
      tlpLoop ls qs
        (List.zipWith (· + ·) (l.apply_tangent_linear_x dy) (l.apply_tangent_linear_p q))
  | _, _, dy => dy

/-- Source `SequentialNetwork.apply_tangent_linear_p`.  On an empty network
`self.layers[0]` raises `IndexError`, modelled as `none`; otherwise the first
parameter slice seeds the loop over the remaining layers. -/
def netApplyTangentLinearP (net : List Layer) (dp : List ℚ) : Option (List ℚ) :=
  match net with
  | [] => none
  | l :: ls =>
      some (tlpLoop ls (split_parameters ls (dp.drop l.num_parameters))
        (l.apply_tangent_linear_p (dp.take l.num_parameters)))

/-- Loop of `apply_adjoint_p` over `self.layers[::-1][:-1]`: collect each
layer's parameter adjoint, then propagate the seed upstream. -/
def adjPLoop : List Layer → List ℚ → List (List ℚ) × List ℚ
  | [], dy => ([], dy)
  | l :: ls, dy =>
      let r := adjPLoop ls (l.apply_adjoint_x dy)
      (l.apply_adjoint_p dy :: r.1, r.2)

/-- Source `SequentialNetwork.apply_adjoint_p`: walk all layers but the first
in reverse order, finish with `self.layers[0]` (IndexError on an empty
network, modelled as `none`), then reverse the collected list back to forward
order and concatenate. -/
def netApplyAdjointP (net : List Layer) (dy : List ℚ) : Option (List ℚ) :=
  match net with
  | [] => none
  | l :: ls =>
      let r := adjPLoop ls.reverse dy
      some ((r.1 ++ [l.apply_adjoint_p r.2]).reverse.flatten)

/-- Source `SequentialNetwork.apply_tangent_linear`: sum of the parameter and
input tangent linear maps. -/
def netApplyTangentLinear (net : List Layer) (dp dx : List ℚ) : Option (List ℚ) :=
  (netApplyTangentLinearP net dp).map fun dyp =>
    List.zipWith (· + ·) dyp (netApplyTangentLinearX net dx)

/-- Source `SequentialNetwork.apply_adjoint`: the pair of parameter and input
adjoints. -/
def netApplyAdjoint (net : List Layer) (dy : List ℚ) : Option (List ℚ × List ℚ) :=
  (netApplyAdjointP net dy).map fun dp => (dp, netApplyAdjointX net dy)

/-- Effect of `DenseLayer.initialise` on the parameter buffer.  The `zero`
policy fills the buffer with zeros; `randn` assigns a freshly drawn sample
(passed in explicitly as `randn`, making the hidden global random state an
argument); `value` broadcast-assigns the caller-supplied vector; any other
name falls through the `if/elif` chain and leaves the buffer untouched. -/
def initialiseParams (buf : List ℚ) (initialisation : String)
    (value randn : List ℚ) : Option (List ℚ) :=
  if initialisation = "zero" then some (buf.map fun _ => 0)
  else if initialisation = "randn" then broadcastAssign buf randn
  else if initialisation = "value" then broadcastAssign buf value
  else some buf

/-- Source `DenseLayer.initialise` (mutates only `self.parameters`). -/
def DenseLayer.initialise (d : DenseLayer) (initialisation : String)
    (value randn : List ℚ) : Option DenseLayer :=
  (initialiseParams d.parameters initialisation value randn).map
    fun p => { d with parameters := p }

/-- Source `DenseLayer.__init__`: allocate `np.empty(num_parameters)` (its
arbitrary contents are the argument `alloc`), run `initialise`, then build
the activation by name (a `KeyError` there, or a broadcast failure in
`initialise`, aborts construction). -/
def mkDenseLayer (Nin Nout : ℕ) (activation initialisation : String)
    (value randn alloc : List ℚ) : Option DenseLayer :=
  match initialiseParams alloc initialisation value randn with
  | none => none
  | some p =>
      match construct_activation activation with
      | none => none
      | some k => some ⟨Nin, Nout, k, p, [], []⟩

/-! ### Interchange text format

A file is a list of lines.  A line is either a bare token (layer kinds,
activation names), an integer line, or a numeric row read by
`np.loadtxt(f, max_rows=1)`. -/

/-- One line of the interchange document. -/
inductive FLine where
  | word : String → FLine
  | int : ℕ → FLine
  | vec : List ℚ → FLine
deriving DecidableEq

/-- `f.readline().strip()`: at end of file python returns the empty string; an
integer line reads back as its digits; the text of a numeric row is never one
of the bare keywords, which is all the parser compares it against, so it is
modelled by a marker beginning with a digit. -/
def readName : List FLine → String × List FLine
  | [] => ("", [])
  | FLine.word s :: rest => (s, rest)
  | FLine.int n :: rest => (toString n, rest)
  | FLine.vec _ :: rest => ("0.0e0", rest)

/-- `int(f.readline().strip())`: fails (`ValueError`) unless the line is an
integer literal. -/
def readInt : List FLine → Option (ℕ × List FLine)
  | FLine.int n :: rest => some (n, rest)
  | _ => none

/-- `np.loadtxt(f, max_rows=1)`: one numeric row; an integer line parses as a
single number; a keyword line or end of file raises. -/
def readVec : List FLine → Option (List ℚ × List FLine)
  | FLine.vec v :: rest => some (v, rest)
  | FLine.int n :: rest => some ([(n : ℚ)], rest)
  | _ => none

/-- Outcome of a python call that may return a value, print a diagnostic and
return `None`, or raise an exception. -/
inductive ReadResult (α : Type) where
  | ok : α → ReadResult α
  | returnedNone : ReadResult α
  | raised : ReadResult α
deriving DecidableEq

/-- Source `layer_fromfile`: dispatch on the first line.  `dense` and
`normalisation` records are parsed field by field (a malformed field raises);
any other kind prints `unknown layer type` and returns `None`, consuming only
the kind line. -/
def layer_fromfile (f : List FLine) : ReadResult Layer × List FLine :=
  let r0 := readName f
  if r0.1 = "dense" then
    match readInt r0.2 with
    | none => (ReadResult.raised, r0.2)
    | some (nin, f2) =>
        match readInt f2 with
        | none => (ReadResult.raised, f2)
        | some (nout, f3) =>
            match readVec f3 with
            | none => (ReadResult.raised, f3)
            | some (p, f4) =>
                let r5 := readName f4
                match mkDenseLayer nin nout r5.1 "value" p []
                    (List.replicate (nout * (nin + 1)) 0) with
                | none => (ReadResult.raised, r5.2)
                | some d => (ReadResult.ok (Layer.dense d), r5.2)
  else if r0.1 = "normalisation" then
    match readInt r0.2 with
    | none => (ReadResult.raised, r0.2)
    | some (n, f2) =>
        match readVec f2 with
        | none => (ReadResult.raised, f2)
        | some (alpha, f3) =>
            match readVec f3 with
            | none => (ReadResult.raised, f3)
            | some (beta, f4) =>
                (ReadResult.ok (Layer.normalisation ⟨n, alpha, beta⟩), f4)
  else
    (ReadResult.returnedNone, r0.2)

/-- The `for i in range(num_layers)` loop of `fromfile`: each iteration
appends whatever `layer_fromfile` returned — including `None` — to the layer
list; an exception aborts the whole call. -/
def fromfileLoop : ℕ → List FLine → Option (List (Option Layer) × List FLine)
  | 0, f => some ([], f)
  | n + 1, f =>
      match layer_fromfile f with
      | (ReadResult.raised, _) => none
      | (ReadResult.ok l, f') =>
          (fromfileLoop n f').map fun r => (some l :: r.1, r.2)
      | (ReadResult.returnedNone, f') =>
          (fromfileLoop n f').map fun r => (none :: r.1, r.2)

/-- Source `fromfile`: a root kind other than `sequential` prints
`unknown network type` and returns `None`; otherwise the stated number of
layer records is read in order. -/
def fromfile (f : List FLine) : ReadResult (List (Option Layer)) :=
  let r0 := readName f
  if r0.1 = "sequential" then
    match readInt r0.2 with
    | none => ReadResult.raised
    | some (n, f2) =>
        match fromfileLoop n f2 with
        | none => ReadResult.raised
        | some r => ReadResult.ok r.1
  else ReadResult.returnedNone

/-! ### Well-formedness

`wf0` states the construction-time invariants (buffer lengths); `wfLin`
additionally states the invariants of the linearisation state, as
established by `apply_linearise`.  A linear activation stores no prime, so
no constraint is placed on it. -/

/-- Parameter buffer has the allocated length. -/
def Layer.paramsLenOk : Layer → Bool
  | Layer.dense d => d.parameters.length == d.Nout * (d.Nin + 1)
  | Layer.normalisation _ => true

/-- Construction-time well-formedness of a layer. -/
def Layer.wf0 : Layer → Bool
  | Layer.dense d => d.parameters.length == d.Nout * (d.Nin + 1)
  | Layer.normalisation nl =>
      nl.alpha.length == nl.Ninout && nl.beta.length == nl.Ninout

/-- Well-formedness of a linearised layer. -/
def Layer.wfLin : Layer → Bool
  | Layer.dense d =>
      d.parameters.length == d.Nout * (d.Nin + 1) && d.x.length == d.Nin &&
        (d.kind == ActivationKind.linear || d.prime.length == d.Nout)
  | Layer.normalisation nl =>
      nl.alpha.length == nl.Ninout && nl.beta.length == nl.Ninout

/-- Construction-time well-formedness of a stack mapping width `nin` to
width `nout`, with matching interfaces between consecutive layers. -/
def chainWF0 : List Layer → ℕ → ℕ → Bool
  | [], nin, nout => nin == nout
  | l :: ls, nin, nout => l.wf0 && (l.NinOf == nin) && chainWF0 ls l.NoutOf nout

/-- Well-formedness of a linearised stack. -/
def chainWFLin : List Layer → ℕ → ℕ → Bool
  | [], nin, nout => nin == nout
  | l :: ls, nin, nout => l.wfLin && (l.NinOf == nin) && chainWFLin ls l.NoutOf nout

/-- Forward-order list of per-layer parameter-adjoint contributions with the
backward seed recurrence of the specification: the contribution of a layer is
its `apply_adjoint_p` evaluated at the seed obtained by pushing `dy` through
all downstream layers' `apply_adjoint_x`. -/
def adjPContrib : List Layer → List ℚ → List (List ℚ)
  | [], _ => []
  | l :: ls, dy => l.apply_adjoint_p (netApplyAdjointX ls dy) :: adjPContrib ls dy

/-- Structural form of the parameter tangent-linear loop, consuming the flat
perturbation vector directly. -/
def tlpFull : List Layer → List ℚ → List ℚ → List ℚ
  | [], _, dy => dy
  | l :: ls, dp, dy =>
      tlpFull ls (dp.drop l.num_parameters)
        (List.zipWith (· + ·) (l.apply_tangent_linear_x dy)
          (l.apply_tangent_linear_p (dp.take l.num_parameters)))

/-! ### Dot product lemmas -/

theorem dot_nil_left (v : List ℚ) : dot [] v = 0 := rfl

theorem dot_nil_right (u : List ℚ) : dot u [] = 0 := by
  cases u <;> simp [dot]

theorem dot_cons (a b : ℚ) (u v : List ℚ) :
    dot (a :: u) (b :: v) = a * b + dot u v := by
  simp [dot]

theorem dot_comm (u v : List ℚ) : dot u v = dot v u := by
  induction u generalizing v with
  | nil => simp [dot_nil_left, dot_nil_right]
  | cons a u ih =>
      cases v with
      | nil => simp [dot_nil_left, dot_nil_right]
      | cons b v => simp [dot_cons, ih, mul_comm]

theorem dot_append (a b c : List ℚ) :
    dot (a ++ b) c = dot a (c.take a.length) + dot b (c.drop a.length) := by
  induction a generalizing c with
  | nil => simp [dot_nil_left]
  | cons x a ih =>
      cases c with
      | nil => simp [dot_nil_right]
      | cons y c => simp [dot_cons, ih]; ring

theorem dot_zipWith_add_left (a b c : List ℚ) (h : a.length = b.length) :
    dot (List.zipWith (· + ·) a b) c = dot a c + dot b c := by
  induction a generalizing b c with
  | nil =>
      have hb : b = [] := by
        simpa [eq_comm, List.length_eq_zero] using h
      simp [hb, dot_nil_left]
  | cons x a ih =>
      cases b with
      | nil => simp at h
      | cons y b =>
          cases c with
          | nil => simp [dot_nil_right]
          | cons z c =>
              have h' : a.length = b.length := by simpa using h
              simp [dot_cons, ih _ _ h']
              ring

theorem dot_zipWith_add_right (a b c : List ℚ) (h : b.length = c.length) :
    dot a (List.zipWith (· + ·) b c) = dot a b + dot a c := by
  rw [dot_comm, dot_zipWith_add_left b c a h, dot_comm b a, dot_comm c a]

theorem dot_zipWith_mul_left (p a b : List ℚ) :
    dot (List.zipWith (· * ·) p a) b = dot a (List.zipWith (· * ·) p b) := by
  induction p generalizing a b with
  | nil => simp [dot_nil_left, dot_nil_right]
  | cons c p ih =>
      cases a with
      | nil => simp [dot_nil_left, dot_nil_right]
      | cons x a =>
          cases b with
          | nil => simp [dot_nil_right]
          | cons y b => simp [dot_cons, ih]; ring

theorem dot_replicate_zero (n : ℕ) (v : List ℚ) :
    dot (List.replicate n 0) v = 0 := by
  induction n generalizing v with
  | zero => simp [dot_nil_left]
  | succ m ih =>
      cases v with
      | nil => simp [dot_nil_right]
      | cons y v => simp [List.replicate_succ, dot_cons, ih]

theorem dot_map_mul (c : ℚ) (u t : List ℚ) :
    dot (u.map fun bi => bi * c) t = c * dot u t := by
  induction u generalizing t with
  | nil => simp [dot_nil_left]
  | cons x u ih =>
      cases t with
      | nil => simp [dot_nil_right]
      | cons y t => simp [dot_cons, ih]; ring

theorem dot_eq_sum (u v : List ℚ) :
    dot u v = ∑ i in Finset.range (min u.length v.length),
      u.getD i 0 * v.getD i 0 := by
  induction u generalizing v with
  | nil => simp [dot_nil_left]
  | cons a u ih =>
      cases v with
      | nil => simp [dot_nil_right]
      | cons b v =>
          rw [dot_cons, ih]
          rw [List.length_cons, List.length_cons, Nat.succ_min_succ,
            Finset.sum_range_succ']
          simp [add_comm]

theorem getD_map_range (f : ℕ → ℚ) (n i : ℕ) (h : i < n) :
    ((List.range n).map f).getD i 0 = f i := by
  rw [List.getD_eq_getElem?_getD, List.getElem?_map, List.getElem?_range h]
  rfl

theorem dot_map_range (f : ℕ → ℚ) (n : ℕ) (b : List ℚ) (h : b.length = n) :
    dot ((List.range n).map f) b = ∑ i in Finset.range n, f i * b.getD i 0 := by
  rw [dot_eq_sum]
  rw [List.length_map, List.length_range, h, min_self]
  exact Finset.sum_congr rfl fun i hi => by
    rw [getD_map_range f n i (Finset.mem_range.mp hi)]

theorem getD_drop_take (q : List ℚ) (s t i : ℕ) (hi : i < t) :
    ((q.drop s).take t).getD i 0 = q.getD (s + i) 0 := by
  rw [List.getD_eq_getElem?_getD, List.getD_eq_getElem?_getD,
    List.getElem?_take, if_pos hi, List.getElem?_drop]

/-! ### Matrix lemmas -/

theorem length_cmMatVec (Nout Nin : ℕ) (q xv : List ℚ) :
    (cmMatVec Nout Nin q xv).length = Nout := by
  simp [cmMatVec]

theorem length_cmMatTVec (Nout Nin : ℕ) (q v : List ℚ) :
    (cmMatTVec Nout Nin q v).length = Nin := by
  simp [cmMatTVec]

/-- The transpose identity for the column-major matrix view:
`⟨Mᵀ v, x⟩ = ⟨v, M x⟩`. -/
theorem cm_transpose (Nout Nin : ℕ) (q v xv : List ℚ)
    (hv : v.length = Nout) (hx : xv.length = Nin) :
    dot (cmMatTVec Nout Nin q v) xv = dot v (cmMatVec Nout Nin q xv) := by
  rw [cmMatTVec, dot_map_range _ Nin xv hx]
  rw [dot_comm, cmMatVec, dot_map_range _ Nout v hv]
  have lhs : ∀ j, dot ((List.range Nout).map fun i => q.getD (j * Nout + i) 0) v
      = ∑ i in Finset.range Nout, q.getD (j * Nout + i) 0 * v.getD i 0 :=
    fun j => dot_map_range _ Nout v hv
  have rhs : ∀ i, dot ((List.range Nin).map fun j => q.getD (j * Nout + i) 0) xv
      = ∑ j in Finset.range Nin, q.getD (j * Nout + i) 0 * xv.getD j 0 :=
    fun i => dot_map_range _ Nin xv hx
  calc ∑ j in Finset.range Nin,
        dot ((List.range Nout).map fun i => q.getD (j * Nout + i) 0) v * xv.getD j 0
      = ∑ j in Finset.range Nin, ∑ i in Finset.range Nout,
          q.getD (j * Nout + i) 0 * v.getD i 0 * xv.getD j 0 := by
        exact Finset.sum_congr rfl fun j _ => by rw [lhs j, Finset.sum_mul]
    _ = ∑ i in Finset.range Nout, ∑ j in Finset.range Nin,
          q.getD (j * Nout + i) 0 * v.getD i 0 * xv.getD j 0 := Finset.sum_comm
    _ = ∑ i in Finset.range Nout,
          dot ((List.range Nin).map fun j => q.getD (j * Nout + i) 0) xv * v.getD i 0 := by
        refine Finset.sum_congr rfl fun i _ => ?_
        rw [rhs i, Finset.sum_mul]
        exact Finset.sum_congr rfl fun j _ => by ring

/-- Dot product of the column-major flattened outer product against a flat
vector, decomposed into per-column contributions. -/
theorem dot_outer_flat (db xv q : List ℚ) :
    dot ((xv.map fun xj => db.map fun bi => bi * xj).flatten) q
      = ∑ j in Finset.range xv.length,
          xv.getD j 0 * dot db ((q.drop (j * db.length)).take db.length) := by
  induction xv generalizing q with
  | nil => simp [dot_nil_left]
  | cons x0 xs ih =>
      rw [List.map_cons, List.flatten_cons, dot_append, List.length_map]
      rw [dot_map_mul, ih (q.drop db.length)]
      rw [List.length_cons, Finset.sum_range_succ']
      have hdrop : ∀ j : ℕ, ((q.drop db.length).drop (j * db.length))
          = q.drop ((j + 1) * db.length) := by
        intro j
        rw [List.drop_drop]
        congr 1
        ring
      simp only [List.getD_cons_succ, List.getD_cons_zero, hdrop,
        Nat.zero_mul, List.drop_zero]
      ring

/-- Dot of a vector against the column-major matrix-vector product, as the
same double sum. -/
theorem dot_cmMatVec_sum (Nout Nin : ℕ) (v q xv : List ℚ)
    (hv : v.length = Nout) (hx : xv.length = Nin) :
    dot v (cmMatVec Nout Nin q xv)
      = ∑ i in Finset.range Nout, ∑ j in Finset.range Nin,
          v.getD i 0 * (q.getD (j * Nout + i) 0 * xv.getD j 0) := by
  rw [dot_comm, cmMatVec, dot_map_range _ Nout v hv]
  refine Finset.sum_congr rfl fun i _ => ?_
  rw [dot_map_range _ Nin xv hx, Finset.sum_mul]
  exact Finset.sum_congr rfl fun j _ => by ring

/-- The outer-product block of `apply_adjoint_p` pairs with the weight block
of `dp` exactly as `db` pairs with `dW @ x`. -/
theorem dot_outer_eq_dot_cm (db xv q : List ℚ) (Nout Nin : ℕ)
    (hdb : db.length = Nout) (hx : xv.length = Nin)
    (hq : q.length = Nout * Nin) :
    dot ((xv.map fun xj => db.map fun bi => bi * xj).flatten) q
      = dot db (cmMatVec Nout Nin q xv) := by
  rw [dot_outer_flat, dot_cmMatVec_sum Nout Nin db q xv hdb hx, hdb, hx]
  rw [Finset.sum_comm]
  refine Finset.sum_congr rfl fun j hj => ?_
  have hj' : j < Nin := Finset.mem_range.mp hj
  have hslice : dot db ((q.drop (j * Nout)).take Nout)
      = ∑ i in Finset.range Nout, db.getD i 0 * q.getD (j * Nout + i) 0 := by
    rw [dot_eq_sum]
    have hlen : ((q.drop (j * Nout)).take Nout).length = Nout := by
      rw [List.length_take, List.length_drop, hq]
      have h1 : j * Nout + Nout ≤ Nout * Nin := by
        have h2 : (j + 1) * Nout ≤ Nin * Nout :=
          Nat.mul_le_mul_right Nout hj'
        rw [Nat.succ_mul] at h2
        exact h2.trans_eq (Nat.mul_comm Nin Nout)
      omega
    rw [hdb, hlen, min_self]
    refine Finset.sum_congr rfl fun i hi => ?_
    rw [getD_drop_take q (j * Nout) Nout i (Finset.mem_range.mp hi)]
  rw [hslice, Finset.mul_sum]
  exact Finset.sum_congr rfl fun i _ => by ring

/-! ### Activation lemmas -/

theorem actTangentLinear_eq_actAdjoint (k : ActivationKind) (p v : List ℚ) :
    actTangentLinear k p v = actAdjoint k p v := by
  cases k <;> rfl

/-- The stored-prime diagonal map is self-adjoint: pairing the adjoint output
with any vector equals pairing the input with the tangent-linear output. -/
theorem dot_actAdjoint_swap (k : ActivationKind) (p a b : List ℚ) :
    dot (actAdjoint k p a) b = dot a (actTangentLinear k p b) := by
  cases k with
  | linear => rfl
  | tanh => simp [actAdjoint, actTangentLinear, dot_zipWith_mul_left]
  | relu => simp [actAdjoint, actTangentLinear, dot_zipWith_mul_left]

theorem length_actTangentLinear (k : ActivationKind) (p v : List ℚ) (n : ℕ)
    (hv : v.length = n) (hk : k = ActivationKind.linear ∨ p.length = n) :
    (actTangentLinear k p v).length = n := by
  cases k with
  | linear => simpa [actTangentLinear] using hv
  | tanh =>
      rcases hk with h | h
      · exact absurd h (by decide)
      · simp [actTangentLinear, h, hv]
  | relu =>
      rcases hk with h | h
      · exact absurd h (by decide)
      · simp [actTangentLinear, h, hv]

theorem length_actAdjoint (k : ActivationKind) (p v : List ℚ) (n : ℕ)
    (hv : v.length = n) (hk : k = ActivationKind.linear ∨ p.length = n) :
    (actAdjoint k p v).length = n := by
  rw [← actTangentLinear_eq_actAdjoint]
  exact length_actTangentLinear k p v n hv hk

theorem zipWith_mul_add (p a b : List ℚ) :
    List.zipWith (· * ·) p (List.zipWith (· + ·) a b)
      = List.zipWith (· + ·) (List.zipWith (· * ·) p a)
          (List.zipWith (· * ·) p b) := by
  induction p generalizing a b with
  | nil => simp
  | cons c p ih =>
      cases a with
      | nil => simp
      | cons x a =>
          cases b with
          | nil => simp
          | cons y b => simp [ih, mul_add]

/-- The activation tangent linear is additive. -/
theorem actTangentLinear_add (k : ActivationKind) (p a b : List ℚ) :
    actTangentLinear k p (List.zipWith (· + ·) a b)
      = List.zipWith (· + ·) (actTangentLinear k p a) (actTangentLinear k p b) := by
  cases k with
  | linear => rfl
  | tanh => simp [actTangentLinear, zipWith_mul_add]
  | relu => simp [actTangentLinear, zipWith_mul_add]

theorem zipWith_add_comm (a b : List ℚ) :
    List.zipWith (· + ·) a b = List.zipWith (· + ·) b a := by
  induction a generalizing b with
  | nil => cases b <;> simp
  | cons x a ih =>
      cases b with
      | nil => simp
      | cons y b => simp [ih, add_comm]

theorem zipWith_add_assoc (a b c : List ℚ) :
    List.zipWith (· + ·) (List.zipWith (· + ·) a b) c
      = List.zipWith (· + ·) a (List.zipWith (· + ·) b c) := by
  induction a generalizing b c with
  | nil => simp
  | cons x a ih =>
      cases b with
      | nil => simp
      | cons y b =>
          cases c with
          | nil => simp
          | cons z c => simp [ih, add_assoc]

/-! ### Per-layer adjoint identities and length facts -/

theorem layer_adjX_dot (l : Layer) (dy dx : List ℚ)
    (hl : l.wfLin = true) (hdy : dy.length = l.NoutOf)
    (hdx : dx.length = l.NinOf) :
    dot (l.apply_adjoint_x dy) dx = dot (l.apply_tangent_linear_x dx) dy := by
  cases l with
  | dense d =>
      simp only [Layer.wfLin, Bool.and_eq_true, beq_iff_eq, Bool.or_eq_true] at hl
      obtain ⟨⟨hp, hx⟩, hk⟩ := hl
      simp only [Layer.NoutOf] at hdy
      simp only [Layer.NinOf] at hdx
      simp only [Layer.apply_adjoint_x, Layer.apply_tangent_linear_x,
        DenseLayer.apply_adjoint_x, DenseLayer.apply_tangent_linear_x,
        DenseLayer.wTMatVec, DenseLayer.wMatVec]
      rw [cm_transpose d.Nout d.Nin _ _ dx
        (length_actAdjoint d.kind d.prime dy d.Nout hdy hk) hdx]
      rw [dot_actAdjoint_swap, dot_comm]
  | normalisation nl =>
      simp only [Layer.apply_adjoint_x, Layer.apply_tangent_linear_x,
        NormalisationLayer.apply_adjoint_x, NormalisationLayer.apply_tangent_linear_x]
      rw [dot_zipWith_mul_left, dot_comm]

theorem layer_adjP_dot (l : Layer) (dy dp : List ℚ)
    (hl : l.wfLin = true) (hdy : dy.length = l.NoutOf)
    (hdp : dp.length = l.num_parameters) :
    dot (l.apply_adjoint_p dy) dp = dot (l.apply_tangent_linear_p dp) dy := by
  cases l with
  | dense d =>
      simp only [Layer.wfLin, Bool.and_eq_true, beq_iff_eq, Bool.or_eq_true] at hl
      obtain ⟨⟨hp, hx⟩, hk⟩ := hl
      simp only [Layer.NoutOf] at hdy
      simp only [Layer.num_parameters, DenseLayer.num_parameters] at hdp
      simp only [Layer.apply_adjoint_p, Layer.apply_tangent_linear_p,
        DenseLayer.apply_adjoint_p, DenseLayer.apply_tangent_linear_p]
      have hdb : (actAdjoint d.kind d.prime dy).length = d.Nout :=
        length_actAdjoint d.kind d.prime dy d.Nout hdy hk
      rw [dot_append, hdb]
      have hq : (dp.drop d.Nout).length = d.Nout * d.Nin := by
        rw [List.length_drop, hdp, Nat.mul_succ]
        omega
      rw [dot_outer_eq_dot_cm _ _ _ d.Nout d.Nin hdb hx hq]
      rw [dot_actAdjoint_swap, dot_actAdjoint_swap]
      have hlen1 : (actTangentLinear d.kind d.prime
          (cmMatVec d.Nout d.Nin (dp.drop d.Nout) d.x)).length = d.Nout :=
        length_actTangentLinear _ _ _ _ (length_cmMatVec _ _ _ _) hk
      have hlen2 : (actTangentLinear d.kind d.prime (dp.take d.Nout)).length
          = d.Nout := by
        refine length_actTangentLinear _ _ _ _ ?_ hk
        rw [List.length_take, hdp, Nat.mul_succ]
        exact Nat.min_eq_left (by omega)
      rw [dot_zipWith_add_left _ _ _ (hlen1.trans hlen2.symm)]
      rw [dot_comm dy, dot_comm dy]
      ring
  | normalisation nl =>
      simp only [Layer.apply_adjoint_p, Layer.apply_tangent_linear_p]
      rw [dot_nil_left, dot_replicate_zero]

theorem length_layer_adjX (l : Layer) (dy : List ℚ)
    (hl : l.wfLin = true) (hdy : dy.length = l.NoutOf) :
    (l.apply_adjoint_x dy).length = l.NinOf := by
  cases l with
  | dense d =>
      simp [Layer.apply_adjoint_x, DenseLayer.apply_adjoint_x,
        DenseLayer.wTMatVec, length_cmMatTVec, Layer.NinOf]
  | normalisation nl =>
      simp only [Layer.wfLin, Bool.and_eq_true, beq_iff_eq] at hl
      simp only [Layer.NoutOf] at hdy
      simp [Layer.apply_adjoint_x, NormalisationLayer.apply_adjoint_x,
        Layer.NinOf, hl.1, hdy]

theorem length_layer_tlX (l : Layer) (dx : List ℚ)
    (hl : l.wfLin = true) (hdx : dx.length = l.NinOf) :
    (l.apply_tangent_linear_x dx).length = l.NoutOf := by
  cases l with
  | dense d =>
      simp only [Layer.wfLin, Bool.and_eq_true, beq_iff_eq, Bool.or_eq_true] at hl
      simp only [Layer.apply_tangent_linear_x, DenseLayer.apply_tangent_linear_x,
        DenseLayer.wMatVec, Layer.NoutOf]
      exact length_actTangentLinear _ _ _ _ (length_cmMatVec _ _ _ _) hl.2
  | normalisation nl =>
      simp only [Layer.wfLin, Bool.and_eq_true, beq_iff_eq] at hl
      simp only [Layer.NinOf] at hdx
      simp [Layer.apply_tangent_linear_x, NormalisationLayer.apply_tangent_linear_x,
        Layer.NoutOf, hl.1, hdx]

theorem length_layer_tlP (l : Layer) (dp : List ℚ)
    (hl : l.wfLin = true) (hdp : dp.length = l.num_parameters) :
    (l.apply_tangent_linear_p dp).length = l.NoutOf := by
  cases l with
  | dense d =>
      simp only [Layer.wfLin, Bool.and_eq_true, beq_iff_eq, Bool.or_eq_true] at hl
      obtain ⟨⟨hp, hx⟩, hk⟩ := hl
      simp only [Layer.num_parameters, DenseLayer.num_parameters] at hdp
      simp only [Layer.apply_tangent_linear_p, DenseLayer.apply_tangent_linear_p,
        Layer.NoutOf]
      have hlen1 : (actTangentLinear d.kind d.prime
          (cmMatVec d.Nout d.Nin (dp.drop d.Nout) d.x)).length = d.Nout :=
        length_actTangentLinear _ _ _ _ (length_cmMatVec _ _ _ _) hk
      have hlen2 : (actTangentLinear d.kind d.prime (dp.take d.Nout)).length
          = d.Nout := by
        refine length_actTangentLinear _ _ _ _ ?_ hk
        rw [List.length_take, hdp, Nat.mul_succ]
        exact Nat.min_eq_left (by omega)
      simp [hlen1, hlen2]
  | normalisation nl =>
      simp [Layer.apply_tangent_linear_p, Layer.NoutOf]

theorem length_layer_adjP (l : Layer) (dy : List ℚ)
    (hl : l.wfLin = true) (hdy : dy.length = l.NoutOf) :
    (l.apply_adjoint_p dy).length = l.num_parameters := by
  cases l with
  | dense d =>
      simp only [Layer.wfLin, Bool.and_eq_true, beq_iff_eq, Bool.or_eq_true] at hl
      obtain ⟨⟨hp, hx⟩, hk⟩ := hl
      simp only [Layer.NoutOf] at hdy
      have hdb : (actAdjoint d.kind d.prime dy).length = d.Nout :=
        length_actAdjoint d.kind d.prime dy d.Nout hdy hk
      simp only [Layer.apply_adjoint_p, DenseLayer.apply_adjoint_p,
        Layer.num_parameters, DenseLayer.num_parameters]
      rw [List.length_append, hdb, List.length_flatten]
      simp only [List.map_map]
      have : (d.x.map fun xj =>
          ((actAdjoint d.kind d.prime dy).map fun bi => bi * xj).length)
          = d.x.map fun _ => d.Nout := by
        refine List.map_congr_left fun xj _ => ?_
        rw [List.length_map, hdb]
      rw [Function.comp_def, this]
      simp [List.map_const, List.sum_replicate, hx, Nat.mul_succ]
      ring
  | normalisation nl =>
      simp [Layer.apply_adjoint_p, Layer.num_parameters]

theorem length_netAdjX (net : List Layer) (nin nout : ℕ) (dy : List ℚ)
    (h : chainWFLin net nin nout = true) (hdy : dy.length = nout) :
    (netApplyAdjointX net dy).length = nin := by
  induction net generalizing nin with
  | nil =>
      simp only [chainWFLin, beq_iff_eq] at h
      simpa [netApplyAdjointX, h] using hdy
  | cons l ls ih =>
      simp only [chainWFLin, Bool.and_eq_true, beq_iff_eq] at h
      obtain ⟨⟨hwf, hnin⟩, hchain⟩ := h
      rw [netApplyAdjointX]
      rw [← hnin]
      exact length_layer_adjX l _ hwf (ih l.NoutOf hchain)

/-! ### Structure of the network-level parameter maps -/

theorem num_parameters_cons (l : Layer) (ls : List Layer) :
    num_parameters (l :: ls) = l.num_parameters + num_parameters ls := by
  simp [num_parameters]

theorem adjPLoop_append (A B : List Layer) (dy : List ℚ) :
    adjPLoop (A ++ B) dy
      = ((adjPLoop A dy).1 ++ (adjPLoop B (adjPLoop A dy).2).1,
          (adjPLoop B (adjPLoop A dy).2).2) := by
  induction A generalizing dy with
  | nil => simp [adjPLoop]
  | cons l A ih => simp [adjPLoop, ih]

/-- The reverse-order loop of `apply_adjoint_p`, run over the reversed layer
list, produces exactly the reversed list of forward-order seed-based
contributions, and its final seed is the input adjoint of the stack. -/
theorem adjPLoop_reverse (ls : List Layer) (dy : List ℚ) :
    adjPLoop ls.reverse dy
      = ((adjPContrib ls dy).reverse, netApplyAdjointX ls dy) := by
  induction ls with
  | nil => simp [adjPLoop, adjPContrib, netApplyAdjointX]
  | cons l t ih =>
      rw [List.reverse_cons, adjPLoop_append, ih]
      simp [adjPLoop, adjPContrib, netApplyAdjointX]

/-- `apply_adjoint_p` of a nonempty network is the flattening, in forward
layer order, of the seed-based per-layer contributions. -/
theorem netAdjP_eq_contrib (net : List Layer) (dy : List ℚ) (hne : net ≠ []) :
    netApplyAdjointP net dy = some ((adjPContrib net dy).flatten) := by
  cases net with
  | nil => exact absurd rfl hne
  | cons l ls =>
      rw [netApplyAdjointP, adjPLoop_reverse]
      simp [adjPContrib]

theorem tlpLoop_eq_tlpFull (ls : List Layer) (dp dy : List ℚ) :
    tlpLoop ls (split_parameters ls dp) dy = tlpFull ls dp dy := by
  induction ls generalizing dp dy with
  | nil => rfl
  | cons l t ih => simp [split_parameters, tlpLoop, tlpFull, ih]

theorem netTLP_eq_tlpFull (l : Layer) (ls : List Layer) (dp : List ℚ) :
    netApplyTangentLinearP (l :: ls) dp
      = some (tlpFull ls (dp.drop l.num_parameters)
          (l.apply_tangent_linear_p (dp.take l.num_parameters))) := by
  rw [netApplyTangentLinearP, tlpLoop_eq_tlpFull]

theorem zipWith_add_map (l : List ℕ) (f g : ℕ → ℚ) :
    List.zipWith (· + ·) (l.map f) (l.map g) = l.map fun i => f i + g i := by
  induction l with
  | nil => rfl
  | cons x t ih => simp [ih]

theorem cmMatVec_add (Nout Nin : ℕ) (q a b : List ℚ) (h : a.length = b.length) :
    cmMatVec Nout Nin q (List.zipWith (· + ·) a b)
      = List.zipWith (· + ·) (cmMatVec Nout Nin q a) (cmMatVec Nout Nin q b) := by
  rw [cmMatVec, cmMatVec, cmMatVec, zipWith_add_map]
  exact List.map_congr_left fun i _ => dot_zipWith_add_right _ a b h

/-- Each layer's input tangent linear is additive. -/
theorem layer_tlX_add (l : Layer) (a b : List ℚ) (h : a.length = b.length) :
    l.apply_tangent_linear_x (List.zipWith (· + ·) a b)
      = List.zipWith (· + ·) (l.apply_tangent_linear_x a)
          (l.apply_tangent_linear_x b) := by
  cases l with
  | dense d =>
      simp only [Layer.apply_tangent_linear_x, DenseLayer.apply_tangent_linear_x,
        DenseLayer.wMatVec]
      rw [cmMatVec_add _ _ _ _ _ h, actTangentLinear_add]
  | normalisation nl =>
      simp only [Layer.apply_tangent_linear_x,
        NormalisationLayer.apply_tangent_linear_x]
      exact zipWith_mul_add _ _ _

/-- The running perturbation of the parameter tangent-linear fold splits off
any additive input-only component, which is then propagated by the pure
input tangent-linear fold. -/
theorem tlpFull_split (ls : List Layer) (m nout : ℕ) (dp a b : List ℚ)
    (h : chainWFLin ls m nout = true) (ha : a.length = m) (hb : b.length = m)
    (hdp : dp.length = num_parameters ls) :
    tlpFull ls dp (List.zipWith (· + ·) a b)
      = List.zipWith (· + ·) (netApplyTangentLinearX ls a) (tlpFull ls dp b) := by
  induction ls generalizing m dp a b with
  | nil => rfl
  | cons l t ih =>
      simp only [chainWFLin, Bool.and_eq_true, beq_iff_eq] at h
      obtain ⟨⟨hwf, hnin⟩, hchain⟩ := h
      rw [num_parameters_cons] at hdp
      have hdp0 : (dp.take l.num_parameters).length = l.num_parameters := by
        rw [List.length_take, hdp]
        omega
      have hdp1 : (dp.drop l.num_parameters).length = num_parameters t := by
        rw [List.length_drop, hdp]
        omega
      have ha' : a.length = l.NinOf := ha.trans hnin.symm
      have hb' : b.length = l.NinOf := hb.trans hnin.symm
      have hta : (l.apply_tangent_linear_x a).length = l.NoutOf :=
        length_layer_tlX l a hwf ha'
      have htb : (l.apply_tangent_linear_x b).length = l.NoutOf :=
        length_layer_tlX l b hwf hb'
      have htp : (l.apply_tangent_linear_p (dp.take l.num_parameters)).length
          = l.NoutOf := length_layer_tlP l _ hwf hdp0
      rw [tlpFull, layer_tlX_add l a b (ha.trans hb.symm), zipWith_add_assoc]
      rw [ih l.NoutOf (dp.drop l.num_parameters) _ _ hchain hta
        (by rw [List.length_zipWith, htb, htp, min_self]) hdp1]
      rfl

/-- Key bilinear identity, generalised over the stack: pairing the collected
parameter adjoints with `dp` plus pairing the input adjoint with an incoming
perturbation `u` equals pairing the forward parameter tangent-linear fold
(seeded with `u`) with `dy`. -/
theorem bilinear_aux (net : List Layer) (nin nout : ℕ) (dy u dp : List ℚ)
    (h : chainWFLin net nin nout = true) (hdy : dy.length = nout)
    (hu : u.length = nin) (hdp : dp.length = num_parameters net) :
    dot ((adjPContrib net dy).flatten) dp + dot (netApplyAdjointX net dy) u
      = dot (tlpFull net dp u) dy := by
  induction net generalizing nin u dp with
  | nil =>
      simp only [chainWFLin, beq_iff_eq] at h
      simp [adjPContrib, netApplyAdjointX, tlpFull, dot_nil_left, dot_comm dy u]
  | cons l t ih =>
      simp only [chainWFLin, Bool.and_eq_true, beq_iff_eq] at h
      obtain ⟨⟨hwf, hnin⟩, hchain⟩ := h
      rw [num_parameters_cons] at hdp
      have hdp0 : (dp.take l.num_parameters).length = l.num_parameters := by
        rw [List.length_take, hdp]
        omega
      have hdp1 : (dp.drop l.num_parameters).length = num_parameters t := by
        rw [List.length_drop, hdp]
        omega
      have hs : (netApplyAdjointX t dy).length = l.NoutOf :=
        length_netAdjX t _ nout dy hchain hdy
      have hc0 : (l.apply_adjoint_p (netApplyAdjointX t dy)).length
          = l.num_parameters :=
        length_layer_adjP l _ hwf hs
      have hu' : u.length = l.NinOf := hu.trans hnin.symm
      have hta : (l.apply_tangent_linear_x u).length = l.NoutOf :=
        length_layer_tlX l u hwf hu'
      have htp : (l.apply_tangent_linear_p (dp.take l.num_parameters)).length
          = l.NoutOf := length_layer_tlP l _ hwf hdp0
      rw [adjPContrib, List.flatten_cons, dot_append, hc0, netApplyAdjointX]
      rw [layer_adjP_dot l _ _ hwf hs hdp0]
      rw [layer_adjX_dot l _ u hwf hs hu']
      rw [tlpFull]
      rw [← ih l.NoutOf
        (List.zipWith (· + ·) (l.apply_tangent_linear_x u)
          (l.apply_tangent_linear_p (dp.take l.num_parameters)))
        (dp.drop l.num_parameters) hchain
        (by rw [List.length_zipWith, hta, htp, min_self]) hdp1]
      rw [dot_comm (netApplyAdjointX t dy),
        dot_zipWith_add_left _ _ _ (hta.trans htp.symm)]
      rw [dot_comm (l.apply_tangent_linear_x u),
        dot_comm (l.apply_tangent_linear_p (dp.take l.num_parameters))]
      ring

/-! ### Effect of `apply_linearise` on the stored state -/

theorem length_preact (d : DenseLayer) (xv : List ℚ)
    (hp : d.parameters.length = d.Nout * (d.Nin + 1)) :
    (d.preact xv).length = d.Nout := by
  have h1 : d.Nout ≤ d.Nout * (d.Nin + 1) :=
    Nat.le_mul_of_pos_right _ (Nat.succ_pos _)
  simp only [DenseLayer.preact, List.length_zipWith, DenseLayer.wMatVec,
    length_cmMatVec, DenseLayer.b, List.length_take, hp]
  omega

theorem layer_linearise_wfLin (E : ActEnv) (l : Layer) (xv : List ℚ)
    (hwf : l.wf0 = true) (hx : xv.length = l.NinOf) :
    (l.apply_linearise E xv).1.wfLin = true := by
  cases l with
  | dense d =>
      simp only [Layer.wf0, beq_iff_eq] at hwf
      simp only [Layer.NinOf] at hx
      have hz := length_preact d xv hwf
      cases hk : d.kind with
      | linear =>
          simp [Layer.apply_linearise, DenseLayer.apply_linearise,
            actApplyLinearise, hk, Layer.wfLin, hwf, hx]
      | tanh =>
          simp [Layer.apply_linearise, DenseLayer.apply_linearise,
            actApplyLinearise, hk, Layer.wfLin, hwf, hx, hz]
      | relu =>
          simp [Layer.apply_linearise, DenseLayer.apply_linearise,
            actApplyLinearise, hk, Layer.wfLin, hwf, hx, hz]
  | normalisation nl =>
      simpa [Layer.apply_linearise, Layer.wfLin, Layer.wf0] using hwf

theorem layer_linearise_len (E : ActEnv) (l : Layer) (xv : List ℚ)
    (hwf : l.wf0 = true) (hx : xv.length = l.NinOf) :
    (l.apply_linearise E xv).2.length = l.NoutOf := by
  cases l with
  | dense d =>
      simp only [Layer.wf0, beq_iff_eq] at hwf
      have hz := length_preact d xv hwf
      cases hk : d.kind with
      | linear =>
          simpa [Layer.apply_linearise, DenseLayer.apply_linearise,
            actApplyLinearise, hk, Layer.NoutOf] using hz
      | tanh =>
          simpa [Layer.apply_linearise, DenseLayer.apply_linearise,
            actApplyLinearise, hk, Layer.NoutOf] using hz
      | relu =>
          simpa [Layer.apply_linearise, DenseLayer.apply_linearise,
            actApplyLinearise, hk, Layer.NoutOf] using hz
  | normalisation nl =>
      simp only [Layer.wf0, Bool.and_eq_true, beq_iff_eq] at hwf
      simp only [Layer.NinOf] at hx
      simp [Layer.apply_linearise, NormalisationLayer.apply, Layer.NoutOf,
        hwf.1, hwf.2, hx]

theorem layer_linearise_preserve (E : ActEnv) (l : Layer) (xv : List ℚ) :
    (l.apply_linearise E xv).1.NinOf = l.NinOf
    ∧ (l.apply_linearise E xv).1.NoutOf = l.NoutOf
    ∧ (l.apply_linearise E xv).1.num_parameters = l.num_parameters := by
  cases l <;>
    simp [Layer.apply_linearise, DenseLayer.apply_linearise, Layer.NinOf,
      Layer.NoutOf, Layer.num_parameters, DenseLayer.num_parameters]

theorem net_linearise_facts (E : ActEnv) (net : List Layer) (nin nout : ℕ)
    (xv : List ℚ) (h : chainWF0 net nin nout = true) (hx : xv.length = nin) :
    chainWFLin (netApplyLinearise E net xv).1 nin nout = true
    ∧ (netApplyLinearise E net xv).2.length = nout
    ∧ num_parameters (netApplyLinearise E net xv).1 = num_parameters net
    ∧ (netApplyLinearise E net xv).1.length = net.length := by
  induction net generalizing nin xv with
  | nil =>
      simp only [chainWF0, beq_iff_eq] at h
      refine ⟨?_, ?_, rfl, rfl⟩
      · simp [netApplyLinearise, chainWFLin, h]
      · simpa [netApplyLinearise, h] using hx
  | cons l t ih =>
      simp only [chainWF0, Bool.and_eq_true, beq_iff_eq] at h
      obtain ⟨⟨hwf, hnin⟩, hchain⟩ := h
      obtain ⟨hnin', hnout', hnum'⟩ := layer_linearise_preserve E l xv
      have hy := layer_linearise_len E l xv hwf (hx.trans hnin.symm)
      obtain ⟨ihwf, ihlen, ihnum, ihlength⟩ :=
        ih l.NoutOf ((l.apply_linearise E xv).2) hchain hy
      refine ⟨?_, ?_, ?_, ?_⟩
      · simp only [netApplyLinearise, chainWFLin, Bool.and_eq_true, beq_iff_eq]
        exact ⟨⟨layer_linearise_wfLin E l xv hwf (hx.trans hnin.symm),
          hnin'.trans hnin⟩, by rw [hnout']; exact ihwf⟩
      · simpa [netApplyLinearise] using ihlen
      · simp only [netApplyLinearise, num_parameters_cons]
        rw [hnum']
        simpa [num_parameters] using congrArg (fun n => l.num_parameters + n) ihnum
      · simpa [netApplyLinearise] using ihlength

/-! ### Output equality of `apply` and `apply_linearise` -/

theorem actApplyVec_linear (E : ActEnv) (z : List ℚ) :
    actApplyVec E ActivationKind.linear z = z := by
  induction z with
  | nil => rfl
  | cons a t ih => simpa [actApplyVec, actApply] using ih

theorem actApplyLinearise_output (E : ActEnv) (k : ActivationKind)
    (p z : List ℚ) : (actApplyLinearise E k p z).1 = actApplyVec E k z := by
  cases k with
  | linear => exact (actApplyVec_linear E z).symm
  | tanh => simp [actApplyLinearise, actApplyVec, actApply]
  | relu => simp [actApplyLinearise, actApplyVec, actApply]

theorem layer_linearise_output (E : ActEnv) (l : Layer) (xv : List ℚ) :
    (l.apply_linearise E xv).2 = l.apply E xv := by
  cases l with
  | dense d =>
      simp only [Layer.apply_linearise, DenseLayer.apply_linearise, Layer.apply,
        DenseLayer.apply]
      exact actApplyLinearise_output E d.kind d.prime (d.preact xv)
  | normalisation nl => rfl

theorem net_linearise_output (E : ActEnv) (net : List Layer) (xv : List ℚ) :
    (netApplyLinearise E net xv).2 = netApply E net xv := by
  induction net generalizing xv with
  | nil => rfl
  | cons l t ih =>
      simp only [netApplyLinearise, netApply]
      rw [← layer_linearise_output E l xv]
      exact ih _

/-! ### Parameter partition and the setter -/

theorem layer_params_length (l : Layer) (h : l.paramsLenOk = true) :
    l.parameters.length = l.num_parameters := by
  cases l with
  | dense d =>
      simp only [Layer.paramsLenOk, beq_iff_eq] at h
      simpa [Layer.parameters, Layer.num_parameters, DenseLayer.num_parameters]
        using h
  | normalisation nl => rfl

theorem netParameters_length (net : List Layer)
    (h : net.all Layer.paramsLenOk = true) :
    (netParameters net).length = num_parameters net := by
  induction net with
  | nil => rfl
  | cons l t ih =>
      simp only [List.all_cons, Bool.and_eq_true] at h
      simp only [netParameters, List.map_cons, List.flatten_cons,
        List.length_append, num_parameters_cons]
      rw [layer_params_length l h.1]
      exact congrArg (fun n => l.num_parameters + n) (ih h.2)

theorem split_netParameters (net : List Layer)
    (h : net.all Layer.paramsLenOk = true) :
    split_parameters net (netParameters net) = net.map Layer.parameters := by
  induction net with
  | nil => rfl
  | cons l t ih =>
      simp only [List.all_cons, Bool.and_eq_true] at h
      simp only [split_parameters, netParameters, List.map_cons,
        List.flatten_cons]
      rw [List.take_left' (layer_params_length l h.1),
        List.drop_left' (layer_params_length l h.1)]
      exact congrArg (fun r => l.parameters :: r) (ih h.2)

theorem assignParams_exact (l : Layer) (q : List ℚ)
    (hl : l.paramsLenOk = true) (hq : q.length = l.num_parameters) :
    ∃ l', l.assignParams q = some l' ∧ l'.parameters = q := by
  cases l with
  | dense d =>
      simp only [Layer.paramsLenOk, beq_iff_eq] at hl
      simp only [Layer.num_parameters, DenseLayer.num_parameters] at hq
      refine ⟨Layer.dense { d with parameters := q }, ?_, rfl⟩
      simp [Layer.assignParams, broadcastAssign, hq, hl]
  | normalisation nl =>
      simp only [Layer.num_parameters, List.length_eq_zero] at hq
      refine ⟨Layer.normalisation nl, ?_, ?_⟩
      · simp [Layer.assignParams, broadcastAssign, hq]
      · simp [Layer.parameters, hq]

/-- When at least `num_parameters` entries are supplied, the setter loop
succeeds and every layer ends up holding exactly its forward-order slice;
any excess entries are silently ignored. -/
theorem setParameters_ge (net : List Layer) (p : List ℚ)
    (h : net.all Layer.paramsLenOk = true)
    (hp : num_parameters net ≤ p.length) :
    (setParameters net p).2 = true
    ∧ (setParameters net p).1.map Layer.parameters = split_parameters net p := by
  induction net generalizing p with
  | nil => exact ⟨rfl, rfl⟩
  | cons l t ih =>
      simp only [List.all_cons, Bool.and_eq_true] at h
      rw [num_parameters_cons] at hp
      have hq : (p.take l.num_parameters).length = l.num_parameters := by
        rw [List.length_take]
        omega
      obtain ⟨l', hassign, hparams⟩ :=
        assignParams_exact l (p.take l.num_parameters) h.1 hq
      have hp' : num_parameters t ≤ (p.drop l.num_parameters).length := by
        rw [List.length_drop]
        omega
      obtain ⟨ihflag, ihmap⟩ := ih (p.drop l.num_parameters) h.2 hp'
      constructor
      · simp only [setParameters, split_parameters, setParamsLoop, hassign]
        exact ihflag
      · simp only [setParameters, split_parameters, setParamsLoop, hassign,
          List.map_cons]
        rw [hparams]
        exact congrArg (fun r => p.take l.num_parameters :: r) ihmap

/-- Concrete activation environment for witnesses: any scalar map will do,
since the verified identities hold for every `ActEnv`. -/
def idActEnv : ActEnv := ⟨fun q => q⟩

/-! ### Claims -/

/-- C1: for every sequential network of dense and normalisation layers and
every input, after `apply_linearise` has been run, and for all perturbation
vectors `dp`, `dx`, `dy` of the appropriate lengths, the bilinear identity
`⟨apply_adjoint_p dy, dp⟩ + ⟨apply_adjoint_x dy, dx⟩ =
⟨apply_tangent_linear dp dx, dy⟩` holds exactly: the adjoint is the exact
transpose of the tangent linear map. -/
theorem adjoint_is_transpose_of_tangent_linear (E : ActEnv)
    (net net' : List Layer) (nin nout : ℕ) (xv y dp dx dy : List ℚ)
    (hwf : chainWF0 net nin nout = true) (hne : net ≠ [])
    (hx : xv.length = nin)
    (hlin : netApplyLinearise E net xv = (net', y))
    (hdp : dp.length = num_parameters net)
    (hdx : dx.length = nin) (hdy : dy.length = nout) :
    ∃ ap ax tl, netApplyAdjoint net' dy = some (ap, ax)
      ∧ netApplyTangentLinear net' dp dx = some tl
      ∧ dot ap dp + dot ax dx = dot tl dy := by
  obtain ⟨hwfLin, hylen, hnum, hlen⟩ := net_linearise_facts E net nin nout xv hwf hx
  rw [hlin] at hwfLin hnum hlen
  cases net' with
  | nil =>
      simp only [List.length_nil] at hlen
      exact absurd (List.length_eq_zero.mp hlen.symm) hne
  | cons l t =>
      have hdp' : dp.length = num_parameters (l :: t) := by rw [hnum]; exact hdp
      simp only [chainWFLin, Bool.and_eq_true, beq_iff_eq] at hwfLin
      obtain ⟨⟨hwf_l, hnin_l⟩, hchain_t⟩ := hwfLin
      rw [num_parameters_cons] at hdp'
      have hdp0 : (dp.take l.num_parameters).length = l.num_parameters := by
        rw [List.length_take]
        omega
      have hdp1 : (dp.drop l.num_parameters).length = num_parameters t := by
        rw [List.length_drop]
        omega
      have hdx' : dx.length = l.NinOf := hdx.trans hnin_l.symm
      have hta : (l.apply_tangent_linear_x dx).length = l.NoutOf :=
        length_layer_tlX l dx hwf_l hdx'
      have htp : (l.apply_tangent_linear_p (dp.take l.num_parameters)).length
          = l.NoutOf := length_layer_tlP l _ hwf_l hdp0
      refine ⟨(adjPContrib (l :: t) dy).flatten, netApplyAdjointX (l :: t) dy,
        List.zipWith (· + ·)
          (tlpFull t (dp.drop l.num_parameters)
            (l.apply_tangent_linear_p (dp.take l.num_parameters)))
          (netApplyTangentLinearX (l :: t) dx), ?_, ?_, ?_⟩
      · rw [netApplyAdjoint, netAdjP_eq_contrib (l :: t) dy (by simp)]
        rfl
      · rw [netApplyTangentLinear, netTLP_eq_tlpFull]
        rfl
      · have main := bilinear_aux (l :: t) nin nout dy dx dp
          (by
            simp only [chainWFLin, Bool.and_eq_true, beq_iff_eq]
            exact ⟨⟨hwf_l, hnin_l⟩, hchain_t⟩)
          hdy hdx (by rw [num_parameters_cons]; omega)
        rw [main]
        have hsplit := tlpFull_split t l.NoutOf nout
          (dp.drop l.num_parameters) (l.apply_tangent_linear_x dx)
          (l.apply_tangent_linear_p (dp.take l.num_parameters))
          hchain_t hta htp hdp1
        rw [tlpFull]
        rw [hsplit]
        rw [zipWith_add_comm]
        rfl

/-- C1 witness: a concrete one-layer linear dense network, linearised at
`x = [3]`, satisfies the bilinear identity at `dp = [1,1]`, `dx = [1]`,
`dy = [1]`. -/
theorem adjoint_is_transpose_of_tangent_linear_witness :
    ∃ ap ax tl,
      netApplyAdjoint (netApplyLinearise idActEnv
          [Layer.dense ⟨1, 1, ActivationKind.linear, [1, 2], [], []⟩] [3]).1 [1]
        = some (ap, ax)
      ∧ netApplyTangentLinear (netApplyLinearise idActEnv
          [Layer.dense ⟨1, 1, ActivationKind.linear, [1, 2], [], []⟩] [3]).1
          [1, 1] [1] = some tl
      ∧ dot ap [1, 1] + dot ax [1] = dot tl [1] :=
  adjoint_is_transpose_of_tangent_linear idActEnv
    [Layer.dense ⟨1, 1, ActivationKind.linear, [1, 2], [], []⟩]
    (netApplyLinearise idActEnv
      [Layer.dense ⟨1, 1, ActivationKind.linear, [1, 2], [], []⟩] [3]).1
    1 1 [3]
    (netApplyLinearise idActEnv
      [Layer.dense ⟨1, 1, ActivationKind.linear, [1, 2], [], []⟩] [3]).2
    [1, 1] [1] [1]
    (by decide) (by decide) (by decide) rfl (by decide) (by decide) (by decide)

/-- C2 counterexample: the claim asserts that any assignment of a vector of
the wrong length fails and leaves every layer unmodified.  In the code,
assigning the length-3 vector `[5,6,7]` to a network whose
`num_parameters = 2` succeeds (the excess entry is silently dropped), and
assigning the length-1 vector `[7]` to a two-layer network with
`num_parameters = 4` broadcast-fills the first layer before the loop fails,
leaving the network partially overwritten. -/
theorem parameters_setter_wrong_length_counterexample :
    (([5, 6, 7] : List ℚ).length
        ≠ num_parameters [Layer.dense ⟨1, 1, ActivationKind.linear, [1, 2], [], []⟩])
    ∧ (setParameters [Layer.dense ⟨1, 1, ActivationKind.linear, [1, 2], [], []⟩]
          [5, 6, 7]
        = ([Layer.dense ⟨1, 1, ActivationKind.linear, [5, 6], [], []⟩], true))
    ∧ (setParameters
          [Layer.dense ⟨1, 1, ActivationKind.linear, [1, 2], [], []⟩,
            Layer.dense ⟨1, 1, ActivationKind.linear, [3, 4], [], []⟩] [7]
        = ([Layer.dense ⟨1, 1, ActivationKind.linear, [7, 7], [], []⟩,
            Layer.dense ⟨1, 1, ActivationKind.linear, [3, 4], [], []⟩], false)) :=
  ⟨by decide, by decide, by decide⟩

/-- C2 amended: the setter performs no length check.  Whenever the supplied
vector has at least `num_parameters` entries, the assignment succeeds,
redistributing the contiguous forward-order slices with exact per-layer
lengths and silently ignoring any excess; a shorter vector fails mid-loop
with a numpy broadcast error, with the layers before the failure point
already overwritten (and a length-1 slice broadcast-filled). -/
theorem parameters_setter_amended (net : List Layer) (p : List ℚ)
    (h : net.all Layer.paramsLenOk = true)
    (hp : num_parameters net ≤ p.length) :
    (setParameters net p).2 = true
    ∧ (setParameters net p).1.map Layer.parameters = split_parameters net p :=
  setParameters_ge net p h hp

/-- C2 amended witness: exact-length assignment on a one-layer network. -/
theorem parameters_setter_amended_witness :
    (setParameters [Layer.dense ⟨1, 1, ActivationKind.linear, [1, 2], [], []⟩]
        [5, 6]).2 = true
    ∧ (setParameters [Layer.dense ⟨1, 1, ActivationKind.linear, [1, 2], [], []⟩]
        [5, 6]).1.map Layer.parameters
      = split_parameters [Layer.dense ⟨1, 1, ActivationKind.linear, [1, 2], [], []⟩]
          [5, 6] :=
  parameters_setter_amended
    [Layer.dense ⟨1, 1, ActivationKind.linear, [1, 2], [], []⟩] [5, 6]
    (by decide) (by decide)

/-- C3 counterexample: a `dropout` record is NOT accepted by the parser — it
prints the unknown-layer diagnostic and returns `None` — and an unknown
record kind does not abort parsing of the network: `fromfile` keeps reading
and returns a network whose layer list contains `None` (no exception). -/
theorem parser_dropout_counterexample :
    (layer_fromfile [FLine.word "dropout", FLine.int 5, FLine.vec [1 / 2]]).1
        = ReadResult.returnedNone
    ∧ fromfile [FLine.word "sequential", FLine.int 1, FLine.word "dropout",
        FLine.int 5, FLine.vec [1 / 2]] = ReadResult.ok [none] :=
  ⟨by decide, by decide⟩

/-- C3 amended: the parser accepts exactly the record kinds `dense` and
`normalisation`; any other kind — including `dropout` — yields a printed
diagnostic and a `None` record, after which parsing continues with the
remaining lines (no exception); a root kind other than `sequential` makes
`fromfile` print a diagnostic and return `None`. -/
theorem parser_unknown_kind_amended :
    (∀ (s : String) (rest : List FLine), s ≠ "dense" → s ≠ "normalisation" →
      layer_fromfile (FLine.word s :: rest) = (ReadResult.returnedNone, rest))
    ∧ (∀ (s : String) (rest : List FLine), s ≠ "sequential" →
      fromfile (FLine.word s :: rest) = ReadResult.returnedNone)
    ∧ (∀ (f rest : List FLine) (l : Layer),
        layer_fromfile f = (ReadResult.ok l, rest) →
        (readName f).1 = "dense" ∨ (readName f).1 = "normalisation") := by
  refine ⟨?_, ?_, ?_⟩
  · intro s rest h1 h2
    simp [layer_fromfile, readName, h1, h2]
  · intro s rest h
    simp [fromfile, readName, h]
  · intro f rest l h
    by_cases hd : (readName f).1 = "dense"
    · exact Or.inl hd
    by_cases hn : (readName f).1 = "normalisation"
    · exact Or.inr hn
    · simp [layer_fromfile, hd, hn] at h

/-- C3 amended witness: the `dropout` kind hits the unknown-kind branch. -/
theorem parser_unknown_kind_amended_witness :
    layer_fromfile [FLine.word "dropout"] = (ReadResult.returnedNone, []) :=
  parser_unknown_kind_amended.1 "dropout" [] (by decide) (by decide)

/-- C4: constructing an activation whose name is outside
`{linear, tanh, relu}` — for example `"sigmoid"` — fails (the dictionary
lookup raises), it fails exactly for the names outside that set, and a dense
layer carrying such a name fails at construction; there is no silent
default. -/
theorem unknown_activation_fails :
    construct_activation "sigmoid" = none
    ∧ (∀ name : String, construct_activation name = none ↔
        ¬(name = "linear" ∨ name = "tanh" ∨ name = "relu"))
    ∧ (∀ (Nin Nout : ℕ) (act init : String) (value randn alloc : List ℚ),
        construct_activation act = none →
        mkDenseLayer Nin Nout act init value randn alloc = none) := by
  refine ⟨by decide, ?_, ?_⟩
  · intro name
    simp only [construct_activation]
    split_ifs with h1 h2 h3
    · simp [h1]
    · simp [h1, h2]
    · simp [h1, h2, h3]
    · simp [h1, h2, h3]
  · intro Nin Nout act init v r alloc h
    cases hinit : initialiseParams alloc init v r with
    | none => simp [mkDenseLayer, hinit]
    | some p => simp [mkDenseLayer, hinit, h]

/-- C4 witness: `"sigmoid"` fails both standalone and inside a dense-layer
construction. -/
theorem unknown_activation_fails_witness :
    construct_activation "sigmoid" = none
    ∧ mkDenseLayer 2 3 "sigmoid" "zero" [] [] [0, 0, 0, 0, 0, 0, 0, 0, 0]
      = none :=
  ⟨unknown_activation_fails.1,
    unknown_activation_fails.2.2 2 3 "sigmoid" "zero" [] []
      [0, 0, 0, 0, 0, 0, 0, 0, 0] (by decide)⟩

/-- C5: on a nonempty network, `apply_adjoint_p` equals the forward-order
concatenation of the per-layer contributions `layer_k.apply_adjoint_p s_k`,
where the seed of the last layer is `dy` and the seed of every earlier layer
is obtained by pushing the downstream seeds through `apply_adjoint_x`
(computed backward, reassembled in forward order). -/
theorem adjoint_p_backward_composition (net : List Layer) (dy : List ℚ)
    (hne : net ≠ []) :
    netApplyAdjointP net dy = some ((adjPContrib net dy).flatten) :=
  netAdjP_eq_contrib net dy hne

/-- C5 witness: concrete two-layer network. -/
theorem adjoint_p_backward_composition_witness :
    netApplyAdjointP
        [Layer.dense ⟨1, 1, ActivationKind.linear, [1, 2], [3], []⟩,
          Layer.dense ⟨1, 1, ActivationKind.linear, [0, 5], [7], []⟩] [1]
      = some ((adjPContrib
          [Layer.dense ⟨1, 1, ActivationKind.linear, [1, 2], [3], []⟩,
            Layer.dense ⟨1, 1, ActivationKind.linear, [0, 5], [7], []⟩]
          [1]).flatten) :=
  adjoint_p_backward_composition
    [Layer.dense ⟨1, 1, ActivationKind.linear, [1, 2], [3], []⟩,
      Layer.dense ⟨1, 1, ActivationKind.linear, [0, 5], [7], []⟩] [1]
    (by decide)

/-- C6: for a dense layer linearised at `x`, and a parameter perturbation
`dp` of length `Nout*(Nin+1)` split as bias block then column-major weight
block, `apply_tangent_linear_p dp` equals the single activation
tangent-linear call on `dW·x + db`: the two separate calls of the
implementation sum to the one-call form by linearity. -/
theorem dense_tangent_linear_p_single_call (E : ActEnv) (d : DenseLayer)
    (xv dp : List ℚ) (hdp : dp.length = d.num_parameters) :
    ((d.apply_linearise E xv).1).apply_tangent_linear_p dp
      = actTangentLinear ((d.apply_linearise E xv).1).kind
          ((d.apply_linearise E xv).1).prime
          (List.zipWith (· + ·)
            (cmMatVec d.Nout d.Nin (dp.drop d.Nout) xv) (dp.take d.Nout)) := by
  simp only [DenseLayer.apply_linearise, DenseLayer.apply_tangent_linear_p]
  rw [actTangentLinear_add]

/-- C6 witness: concrete dense layer, linearised at `[3]`, with
`dp = [1, 2]`. -/
theorem dense_tangent_linear_p_single_call_witness :
    (((⟨1, 1, ActivationKind.linear, [1, 2], [], []⟩ : DenseLayer).apply_linearise
          idActEnv [3]).1).apply_tangent_linear_p [1, 2]
      = actTangentLinear
          (((⟨1, 1, ActivationKind.linear, [1, 2], [], []⟩ : DenseLayer).apply_linearise
              idActEnv [3]).1).kind
          (((⟨1, 1, ActivationKind.linear, [1, 2], [], []⟩ : DenseLayer).apply_linearise
              idActEnv [3]).1).prime
          (List.zipWith (· + ·)
            (cmMatVec 1 1 (([1, 2] : List ℚ).drop 1) [3])
            (([1, 2] : List ℚ).take 1)) :=
  dense_tangent_linear_p_single_call idActEnv
    ⟨1, 1, ActivationKind.linear, [1, 2], [], []⟩ [3] [1, 2] (by decide)

/-- C7: at every level — activation, layer, and sequential network —
`apply_linearise` returns exactly the same output as `apply`; the two differ
only in the internal linearisation state that `apply_linearise` stores. -/
theorem linearise_output_eq_apply (E : ActEnv) :
    (∀ (k : ActivationKind) (p z : List ℚ),
      (actApplyLinearise E k p z).1 = actApplyVec E k z)
    ∧ (∀ (l : Layer) (xv : List ℚ), (l.apply_linearise E xv).2 = l.apply E xv)
    ∧ (∀ (net : List Layer) (xv : List ℚ),
        (netApplyLinearise E net xv).2 = netApply E net xv) :=
  ⟨actApplyLinearise_output E, layer_linearise_output E, net_linearise_output E⟩

/-- C8: the per-layer `num_parameters` sum to the network `num_parameters`,
which equals the length of the vector returned by the `parameters` getter,
and splitting that vector at each layer's `num_parameters` boundary in
forward order recovers exactly each layer's own parameter vector. -/
theorem parameter_partition_invariant (net : List Layer)
    (h : net.all Layer.paramsLenOk = true) :
    num_parameters net = (net.map Layer.num_parameters).sum
    ∧ (netParameters net).length = num_parameters net
    ∧ split_parameters net (netParameters net) = net.map Layer.parameters :=
  ⟨rfl, netParameters_length net h, split_netParameters net h⟩

/-- C8 witness: a dense layer (6 parameters) followed by a normalisation
layer (0 parameters). -/
theorem parameter_partition_invariant_witness :
    num_parameters
        [Layer.dense ⟨2, 2, ActivationKind.relu, [1, 1, 2, -1, 1, 3], [], []⟩,
          Layer.normalisation ⟨2, [2, 2], [-1, 0]⟩]
      = ([Layer.dense ⟨2, 2, ActivationKind.relu, [1, 1, 2, -1, 1, 3], [], []⟩,
          Layer.normalisation ⟨2, [2, 2], [-1, 0]⟩].map Layer.num_parameters).sum
    ∧ (netParameters
        [Layer.dense ⟨2, 2, ActivationKind.relu, [1, 1, 2, -1, 1, 3], [], []⟩,
          Layer.normalisation ⟨2, [2, 2], [-1, 0]⟩]).length
      = num_parameters
        [Layer.dense ⟨2, 2, ActivationKind.relu, [1, 1, 2, -1, 1, 3], [], []⟩,
          Layer.normalisation ⟨2, [2, 2], [-1, 0]⟩]
    ∧ split_parameters
        [Layer.dense ⟨2, 2, ActivationKind.relu, [1, 1, 2, -1, 1, 3], [], []⟩,
          Layer.normalisation ⟨2, [2, 2], [-1, 0]⟩]
        (netParameters
          [Layer.dense ⟨2, 2, ActivationKind.relu, [1, 1, 2, -1, 1, 3], [], []⟩,
            Layer.normalisation ⟨2, [2, 2], [-1, 0]⟩])
      = [Layer.dense ⟨2, 2, ActivationKind.relu, [1, 1, 2, -1, 1, 3], [], []⟩,
          Layer.normalisation ⟨2, [2, 2], [-1, 0]⟩].map Layer.parameters :=
  parameter_partition_invariant
    [Layer.dense ⟨2, 2, ActivationKind.relu, [1, 1, 2, -1, 1, 3], [], []⟩,
      Layer.normalisation ⟨2, [2, 2], [-1, 0]⟩] (by decide)

/-- C9: on an empty layer list `apply`, `apply_linearise`,
`apply_tangent_linear_x` and `apply_adjoint_x` are the identity (the fold
over zero layers), while `apply_tangent_linear_p` and `apply_adjoint_p`
unconditionally index `layers[0]` and hence fail with an index error,
modelled as `none`. -/
theorem empty_network_behaviour (E : ActEnv) (xv dx dy dp : List ℚ) :
    netApply E [] xv = xv
    ∧ (netApplyLinearise E [] xv).2 = xv
    ∧ netApplyTangentLinearX [] dx = dx
    ∧ netApplyAdjointX [] dy = dy
    ∧ netApplyTangentLinearP [] dp = none
    ∧ netApplyAdjointP [] dy = none :=
  ⟨rfl, rfl, rfl, rfl, rfl, rfl⟩

/-- C10: `initialise` with a policy name outside `{zero, randn, value}`
falls through the `if/elif` chain, returns normally, and leaves the
parameter buffer exactly unchanged; in particular constructing a dense layer
with an unrecognised initialisation name succeeds silently, keeping the
arbitrary contents of the fresh `np.empty` allocation. -/
theorem unknown_initialisation_noop (d : DenseLayer) (name : String)
    (value randn : List ℚ)
    (h : ¬(name = "zero" ∨ name = "randn" ∨ name = "value")) :
    d.initialise name value randn = some d
    ∧ ∀ (Nin Nout : ℕ) (act : String) (k : ActivationKind) (alloc : List ℚ),
        construct_activation act = some k →
        mkDenseLayer Nin Nout act name value randn alloc
          = some ⟨Nin, Nout, k, alloc, [], []⟩ := by
  have h1 : ¬ name = "zero" := fun hh => h (Or.inl hh)
  have h2 : ¬ name = "randn" := fun hh => h (Or.inr (Or.inl hh))
  have h3 : ¬ name = "value" := fun hh => h (Or.inr (Or.inr hh))
  constructor
  · simp [DenseLayer.initialise, initialiseParams, h1, h2, h3]
  · intro Nin Nout act k alloc hact
    simp [mkDenseLayer, initialiseParams, h1, h2, h3, hact]

/-- C10 witness: the unrecognised policy name `"glorot"`. -/
theorem unknown_initialisation_noop_witness :
    (⟨1, 1, ActivationKind.relu, [9, 9], [], []⟩ : DenseLayer).initialise
        "glorot" [1] [2]
      = some ⟨1, 1, ActivationKind.relu, [9, 9], [], []⟩
    ∧ mkDenseLayer 1 1 "relu" "glorot" [1] [2] [9, 9]
      = some ⟨1, 1, ActivationKind.relu, [9, 9], [], []⟩ := by
  have h := unknown_initialisation_noop
    (⟨1, 1, ActivationKind.relu, [9, 9], [], []⟩ : DenseLayer) "glorot" [1] [2]
    (by decide)
  exact ⟨h.1, h.2 1 1 "relu" ActivationKind.relu [9, 9] (by decide)⟩

end FNN
